import Mathlib

/-!
Verification of `search_registry_for_application.py`.

The program queries the Windows registry for installed applications whose
`DisplayName` fuzzily matches a guess.  We embed it shallowly:

* Python strings are `List Char`; `str.lower` is `Char.toLower` mapped over
  the list and `str.strip` drops whitespace at both ends.
* Registry values (`EnumValue` results) carry either a string or a non-string
  scalar (`PyVal.int` stands for any non-string payload such as a DWORD).
* The registry reachable from `HKEY_LOCAL_MACHINE` is a `Hive`: a flag saying
  whether `ConnectRegistry` succeeds, and an association list from subtree
  paths to child-key lists.  Each child key (`RegKey`) carries a flag saying
  whether `OpenKey` on it succeeds, plus its enumerated value pairs.
* Python exceptions (`OSError` from `winreg`, `AttributeError` from calling
  `.lower()` on a non-string, `KeyError` from `m["DisplayName"]`) become the
  `PyErr` error type threaded through `PyResult`.
-/

/-- A Python string, as a list of characters. -/
abbrev PyStr := List Char

/-- A registry value payload: a string, or a non-string scalar (e.g. a DWORD).
`int` stands for every non-string shape; what matters to the program is only
that calling `.lower()` on it raises `AttributeError`. -/
inductive PyVal where
  | str (s : PyStr)
  | int (n : Int)
deriving DecidableEq

/-- Whether a value payload is a string (calling `.lower()` on it succeeds). -/
def PyVal.isStr : PyVal → Bool
  | .str _ => true
  | .int _ => false

/-- A Python dict with string keys, as an insertion-ordered association list
with unique keys (the invariant Python maintains). -/
abbrev Dict := List (PyStr × PyVal)

/-- Python exceptions the program can raise. -/
inductive PyErr where
  | connectFailed
  | openKeyFailed
  | attributeError
  | keyError
deriving DecidableEq

/-- Result of running a piece of the program: a value, or an uncaught
exception.  The source has no `try`/`except`, so every error propagates. -/
inductive PyResult (α : Type) where
  | ok (val : α)
  | err (e : PyErr)
deriving DecidableEq

/-- `str.lower()`: lowercase every character. -/
def pyLower (s : PyStr) : PyStr := s.map Char.toLower

/-- `str.strip()`: drop leading and trailing whitespace. -/
def pyStrip (s : PyStr) : PyStr :=
  ((s.dropWhile Char.isWhitespace).reverse.dropWhile Char.isWhitespace).reverse

/-- The normalization `s.lower().strip()` applied by the source to both fuzzy
operands and to attribute names. -/
def pyNorm (s : PyStr) : PyStr := pyStrip (pyLower s)

/-- Python's `needle in hay` substring test on strings. -/
def pyIn (needle : PyStr) : PyStr → Bool
  | [] => needle.isEmpty
  | c :: rest => needle.isPrefixOf (c :: rest) || pyIn needle rest

/-- `fuzzy_match` from the source: normalize both arguments with
`.lower().strip()` and test substring containment in either direction. -/
def fuzzy_match (a b : PyStr) : Bool :=
  let a_ := pyStrip (pyLower a)
  let b_ := pyStrip (pyLower b)
  pyIn a_ b_ || pyIn b_ a_

/-- The literal `"displayname"` compared against normalized attribute names. -/
def displaynameChars : PyStr := "displayname".data

/-- The literal `"DisplayName"` used by `main` to index each match dict. -/
def displayNameKey : PyStr := "DisplayName".data

/-- `d[k] = v` on a Python dict: update in place when the key is present,
append otherwise. -/
def dictSet (d : Dict) (k : PyStr) (v : PyVal) : Dict :=
  if d.any (fun kv => decide (kv.1 = k)) then
    d.map (fun kv => if kv.1 = k then (kv.1, v) else kv)
  else d ++ [(k, v)]

/-- `d[k]` lookup on a Python dict, `none` for `KeyError`. -/
def dictGet : Dict → PyStr → Option PyVal
  | [], _ => none
  | kv :: rest, k => if kv.1 = k then some kv.2 else dictGet rest k

/-- `get_key_details` from the source: fold the enumerated value pairs of one
child key into a dict (last write wins on duplicate names). -/
def get_key_details (vals : List (PyStr × PyVal)) : Dict :=
  vals.foldl (fun d kv => dictSet d kv.1 kv.2) []

/-- One child key under an uninstall subtree: its name as returned by
`EnumKey`, whether `OpenKey` on it succeeds, and its `EnumValue` pairs. -/
structure RegKey where
  keyName : PyStr
  accessible : Bool
  values : List (PyStr × PyVal)
deriving DecidableEq

/-- The registry root: whether `ConnectRegistry` succeeds, and the child-key
lists of the subtree paths that exist and can be opened. -/
structure Hive where
  connectable : Bool
  subtrees : List (PyStr × List RegKey)
deriving DecidableEq

/-- `OpenKey` on a subtree path: the children when the path can be opened,
`none` (an `OSError`) otherwise. -/
def lookupPath : List (PyStr × List RegKey) → PyStr → Option (List RegKey)
  | [], _ => none
  | st :: rest, p => if st.1 = p then some st.2 else lookupPath rest p

/-- The inner loop of `search_hive` over one child's value pairs `(k, v)`:
when `k.lower().strip() == "displayname"`, evaluate `fuzzy_match(name_guess, v)`
— which raises `AttributeError` when `v` is not a string — and on a match
append `get_key_details` of the whole child. -/
def scanValues (g : PyStr) (allVals : List (PyStr × PyVal)) :
    List (PyStr × PyVal) → PyResult (List Dict)
  | [] => .ok []
  | kv :: rest =>
    if pyNorm kv.1 = displaynameChars then
      match kv.2 with
      | .str s =>
        match scanValues g allVals rest with
        | .ok ms => .ok ((if fuzzy_match g s then [get_key_details allVals] else []) ++ ms)
        | .err e => .err e
      | .int _ => .err .attributeError
    else scanValues g allVals rest

/-- One iteration of the outer loop of `search_hive`: `OpenKey` on the child
(which may fail) and then the scan of its values. -/
def scanChild (g : PyStr) (c : RegKey) : PyResult (List Dict) :=
  if c.accessible then scanValues g c.values c.values else .err .openKeyFailed

/-- The outer loop of `search_hive`: visit the children in enumeration order,
concatenating their matches; any exception aborts the walk. -/
def searchChildren (g : PyStr) : List RegKey → PyResult (List Dict)
  | [] => .ok []
  | c :: cs =>
    match scanChild g c with
    | .err e => .err e
    | .ok m =>
      match searchChildren g cs with
      | .err e => .err e
      | .ok ms => .ok (m ++ ms)

/-- `search_hive` from the source: open one subtree path under the hive and
scan each of its child keys in order. -/
def search_hive (g : PyStr) (h : Hive) (subKeyPath : PyStr) : PyResult (List Dict) :=
  match lookupPath h.subtrees subKeyPath with
  | none => .err .openKeyFailed
  | some children => searchChildren g children

/-- The `uninstall_hives` list from the source: the two configured uninstall
subtree paths. -/
def uninstall_hives : List PyStr :=
  ["SOFTWARE\\Microsoft\\Windows\\CurrentVersion\\Uninstall".data,
   "SOFTWARE\\WOW6432Node\\Microsoft\\Windows\\CurrentVersion\\Uninstall".data]

/-- The loop `for sub_key in uninstall_hives[:1]: matches += search_hive(...)`,
generalized over the path list actually iterated. -/
def searchPathList (g : PyStr) (h : Hive) : List PyStr → PyResult (List Dict)
  | [] => .ok []
  | p :: ps =>
    match search_hive g h p with
    | .err e => .err e
    | .ok m =>
      match searchPathList g h ps with
      | .err e => .err e
      | .ok ms => .ok (m ++ ms)

/-- `find_application_display_name_by_name` from the source: connect to the
registry root, then iterate `uninstall_hives[:1]` — note the `[:1]` slice,
which keeps only the first configured path — accumulating `search_hive`
results. -/
def find_application_display_name_by_name (g : PyStr) (h : Hive) : PyResult (List Dict) :=
  if h.connectable then searchPathList g h (uninstall_hives.take 1)
  else .err .connectFailed

/-- The terse branch of `main`: `print(m["DisplayName"])` for each match in
order.  Returns the values printed before any `KeyError`, and whether the
loop completed. -/
def terseLines : List Dict → List PyVal × Bool
  | [] => ([], true)
  | m :: ms =>
    match dictGet m displayNameKey with
    | none => ([], false)
    | some v =>
      let r := terseLines ms
      (v :: r.1, r.2)

/-- Running the program end to end in terse mode: the lines printed and
whether it exited without an uncaught exception. -/
def run_terse (g : PyStr) (h : Hive) : List PyVal × Bool :=
  match find_application_display_name_by_name g h with
  | .err _ => ([], false)
  | .ok ms => terseLines ms

/-- An attribute pair that triggers a match: normalized name `"displayname"`
and a string value that fuzzy-matches the guess. -/
def isMatchAttr (g : PyStr) (kv : PyStr × PyVal) : Bool :=
  pyNorm kv.1 = displaynameChars &&
    match kv.2 with
    | .str s => fuzzy_match g s
    | .int _ => false

/-- The first configured uninstall subtree path. -/
def uninstallPath1 : PyStr := "SOFTWARE\\Microsoft\\Windows\\CurrentVersion\\Uninstall".data

/-- The second configured uninstall subtree path (the one the `[:1]` slice
skips). -/
def uninstallPath2 : PyStr :=
  "SOFTWARE\\WOW6432Node\\Microsoft\\Windows\\CurrentVersion\\Uninstall".data

/-! Concrete fixtures used to instantiate the theorems. -/

/-- Fixture: a child key whose `DisplayName` is `"Alpha App"`. -/
def keyAlpha : RegKey :=
  ⟨"AppA".data, true, [("DisplayName".data, .str "Alpha App".data)]⟩

/-- Fixture: a child key whose `DisplayName` is `"Beta App"`. -/
def keyBeta : RegKey :=
  ⟨"AppB".data, true, [("DisplayName".data, .str "Beta App".data)]⟩

/-- Fixture: a hive with a matching child under each of the two configured
uninstall paths. -/
def hiveTwoPaths : Hive :=
  ⟨true, [(uninstallPath1, [keyAlpha]), (uninstallPath2, [keyBeta])]⟩

/-- Fixture: a child key with no attribute named (after normalization)
`"displayname"`. -/
def keyNoName : RegKey :=
  ⟨"AppC".data, true, [("Version".data, .str "1.0".data)]⟩

/-- Fixture: a hive whose only child under the scanned path lacks a
`DisplayName` attribute. -/
def hiveNoName : Hive := ⟨true, [(uninstallPath1, [keyNoName])]⟩

/-- Fixture: a child key whose name attribute is spelled `"displayname"`,
which matches after normalization but is not the exact dict key `main`
indexes. -/
def keyLowerName : RegKey :=
  ⟨"AppD".data, true, [("displayname".data, .str "Gamma".data)]⟩

/-- Fixture: a hive whose only match carries the lowercase `"displayname"`
dict key. -/
def hiveLowerName : Hive := ⟨true, [(uninstallPath1, [keyLowerName])]⟩

/-- Fixture: a child key whose `DisplayName` value is a non-string scalar. -/
def keyIntName : RegKey :=
  ⟨"AppE".data, true, [("DisplayName".data, .int 2)]⟩

/-- Fixture: a hive whose only child has a non-string `DisplayName` value. -/
def hiveIntName : Hive := ⟨true, [(uninstallPath1, [keyIntName])]⟩

/-- Fixture: a hive whose root connection fails. -/
def hiveClosed : Hive := ⟨false, [(uninstallPath1, [keyAlpha])]⟩

/-- Fixture: a child key that cannot be opened (`OpenKey` raises). -/
def keyLocked : RegKey := ⟨"AppF".data, false, [("DisplayName".data, .str "F".data)]⟩

/-- Fixture: a child key with two attributes that both normalize to
`"displayname"` and both fuzzy-match the guess `"app"`. -/
def keyDupName : RegKey :=
  ⟨"AppG".data, true,
    [("DisplayName".data, .str "App One".data),
     (" DisplayName ".data, .str "The App One".data),
     ("Version".data, .int 7)]⟩

/-- Fixture: a hive with two well-formed children under the scanned path. -/
def hiveTwoKids : Hive := ⟨true, [(uninstallPath1, [keyAlpha, keyBeta])]⟩

/-! Foundational lemmas about the string primitives. -/

/-- `Char.ofNat` of a valid codepoint round-trips through `toNat`. -/
theorem toNat_ofNat_valid {n : Nat} (h : n.isValidChar) : (Char.ofNat n).toNat = n := by
  simp [Char.ofNat, dif_pos h, Char.ofNatAux, Char.toNat, UInt32.toNat, BitVec.toNat_ofNatLt]

/-- No character with codepoint at least 65 is whitespace. -/
theorem isWhitespace_large (d : Char) (h1 : 65 ≤ d.toNat) : d.isWhitespace = false := by
  have h32 : (' ' : Char).toNat = 32 := rfl
  have h9 : ('\t' : Char).toNat = 9 := rfl
  have h13 : ('\r' : Char).toNat = 13 := rfl
  have h10 : ('\n' : Char).toNat = 10 := rfl
  simp only [Char.isWhitespace, Bool.or_eq_false_iff, decide_eq_false_iff_not]
  refine ⟨⟨⟨?_, ?_⟩, ?_⟩, ?_⟩ <;>
    · intro heq
      have hc := congrArg Char.toNat heq
      rw [h32] at *
      rw [h9] at *
      omega

/-- Lowercasing preserves whitespace-ness of a character. -/
theorem isWhitespace_toLower (c : Char) : c.toLower.isWhitespace = c.isWhitespace := by
  by_cases h : c.toNat ≥ 65 ∧ c.toNat ≤ 90
  · have hvalid : (c.toNat + 32).isValidChar := Or.inl (by omega)
    have ht : (Char.toLower c).toNat = c.toNat + 32 := by
      simp only [Char.toLower, if_pos h]
      exact toNat_ofNat_valid hvalid
    rw [isWhitespace_large c h.1, isWhitespace_large c.toLower (by omega)]
  · simp only [Char.toLower, if_neg h]

/-- Lowercasing and stripping commute, so the source's `.lower().strip()`
equals the spec's trim-then-lowercase normalization. -/
theorem pyStrip_pyLower (s : PyStr) : pyStrip (pyLower s) = pyLower (pyStrip s) := by
  have hcomp : (fun c => Char.isWhitespace (Char.toLower c)) = Char.isWhitespace :=
    funext isWhitespace_toLower
  unfold pyStrip pyLower
  rw [List.dropWhile_map, Function.comp_def, hcomp, ← List.map_reverse,
    List.dropWhile_map, Function.comp_def, hcomp, ← List.map_reverse]

/-- `pyIn` decides Python's substring containment, i.e. list infixhood. -/
theorem pyIn_iff (n h : PyStr) : pyIn n h = true ↔ n <:+: h := by
  induction h with
  | nil =>
    simp [pyIn, List.isEmpty_iff]
  | cons c rest ih =>
    simp [pyIn, ih, List.infix_cons_iff]

/-- `fuzzy_match` in terms of infixhood of the normalized operands. -/
theorem fuzzy_match_eq_true_iff (a b : PyStr) :
    fuzzy_match a b = true ↔
      (pyNorm a <:+: pyNorm b ∨ pyNorm b <:+: pyNorm a) := by
  simp [fuzzy_match, pyNorm, pyIn_iff]

/-- The empty guess fuzzy-matches every string. -/
theorem fuzzy_match_nil (s : PyStr) : fuzzy_match [] s = true := by
  have h0 : pyStrip (pyLower []) = [] := rfl
  simp [fuzzy_match, h0, pyIn_iff]

/-! Lemmas about the value scan and the child walk. -/

/-- When every `"displayname"`-named attribute carries a string, the value
scan completes and yields one copy of the child's record per matching
attribute occurrence. -/
theorem scanValues_ok_of_strings (g : PyStr) (av vals : List (PyStr × PyVal))
    (hstr : ∀ kv ∈ vals, pyNorm kv.1 = displaynameChars → kv.2.isStr = true) :
    scanValues g av vals =
      .ok (List.replicate (vals.countP (isMatchAttr g)) (get_key_details av)) := by
  revert hstr
  induction vals with
  | nil => intro _; simp [scanValues]
  | cons kv rest ih =>
    intro hstr
    have hrest := fun kv2 hm => hstr kv2 (List.mem_cons_of_mem _ hm)
    obtain ⟨k, v⟩ := kv
    by_cases hk : pyNorm k = displaynameChars
    · have hv := hstr (k, v) (List.mem_cons_self _ _) hk
      cases v with
      | int n => simp [PyVal.isStr] at hv
      | str s =>
        simp only [scanValues, if_pos hk, ih hrest]
        cases hfm : fuzzy_match g s with
        | true =>
          simp [List.countP_cons, isMatchAttr, hk, hfm, List.replicate_succ]
        | false =>
          simp [List.countP_cons, isMatchAttr, hk, hfm]
    · simp only [scanValues, if_neg hk, ih hrest]
      simp [List.countP_cons, isMatchAttr, hk]

/-- Provenance: each record the value scan returns is the child's flattened
record, justified by a matching `"displayname"`-named string attribute. -/
theorem scanValues_mem (g : PyStr) (av vals : List (PyStr × PyVal)) (ms : List Dict)
    (hok : scanValues g av vals = .ok ms) :
    ∀ m ∈ ms, m = get_key_details av ∧
      ∃ kv ∈ vals, pyNorm kv.1 = displaynameChars ∧
        ∃ s, kv.2 = PyVal.str s ∧ fuzzy_match g s = true := by
  revert ms
  induction vals with
  | nil =>
    intro ms hok
    simp only [scanValues, PyResult.ok.injEq] at hok
    subst hok
    intro m hm
    cases hm
  | cons kv rest ih =>
    intro ms hok
    obtain ⟨k, v⟩ := kv
    by_cases hk : pyNorm k = displaynameChars
    · simp only [scanValues, if_pos hk] at hok
      cases v with
      | int n => cases hok
      | str s =>
        cases hrec : scanValues g av rest with
        | err e => rw [hrec] at hok; cases hok
        | ok ms2 =>
          rw [hrec] at hok
          cases hok
          intro m hm
          rcases List.mem_append.mp hm with hm1 | hm2
          · by_cases hf : fuzzy_match g s = true
            · rw [if_pos hf] at hm1
              simp only [List.mem_singleton] at hm1
              subst hm1
              exact ⟨rfl, (k, .str s), List.mem_cons_self _ _, hk, s, rfl, hf⟩
            · rw [if_neg hf] at hm1; cases hm1
          · obtain ⟨h1, kv2, hmem, hrest⟩ := ih ms2 hrec m hm2
            exact ⟨h1, kv2, List.mem_cons_of_mem _ hmem, hrest⟩
    · simp only [scanValues, if_neg hk] at hok
      intro m hm
      obtain ⟨h1, kv2, hmem, hrest⟩ := ih ms hok m hm
      exact ⟨h1, kv2, List.mem_cons_of_mem _ hmem, hrest⟩

/-- A successful `scanChild` means the child opened and its value scan ran. -/
theorem scanChild_ok (g : PyStr) (c : RegKey) (ms : List Dict)
    (hok : scanChild g c = .ok ms) :
    c.accessible = true ∧ scanValues g c.values c.values = .ok ms := by
  unfold scanChild at hok
  cases ha : c.accessible
  · rw [ha] at hok; cases hok
  · rw [ha] at hok
    simp only [if_true] at hok
    exact ⟨rfl, hok⟩

/-- Provenance across the child walk: each record a successful walk returns
comes from one visited child with a matching name attribute. -/
theorem searchChildren_mem (g : PyStr) (cs : List RegKey) (ms : List Dict)
    (hok : searchChildren g cs = .ok ms) :
    ∀ m ∈ ms, ∃ c ∈ cs, m = get_key_details c.values ∧
      ∃ kv ∈ c.values, pyNorm kv.1 = displaynameChars ∧
        ∃ s, kv.2 = PyVal.str s ∧ fuzzy_match g s = true := by
  revert ms
  induction cs with
  | nil =>
    intro ms hok
    simp only [searchChildren, PyResult.ok.injEq] at hok
    subst hok
    intro m hm
    cases hm
  | cons c rest ih =>
    intro ms hok
    simp only [searchChildren] at hok
    cases h1 : scanChild g c with
    | err e => rw [h1] at hok; cases hok
    | ok m1 =>
      rw [h1] at hok
      cases h2 : searchChildren g rest with
      | err e => rw [h2] at hok; cases hok
      | ok ms2 =>
        rw [h2] at hok
        cases hok
        intro m hm
        rcases List.mem_append.mp hm with hm1 | hm2
        · obtain ⟨ha, hsv⟩ := scanChild_ok g c m1 h1
          obtain ⟨heq, kv, hmem, hp⟩ := scanValues_mem g c.values c.values m1 hsv m hm1
          exact ⟨c, List.mem_cons_self _ _, heq, kv, hmem, hp⟩
        · obtain ⟨c2, hc2, hrest⟩ := ih ms2 h2 m hm2
          exact ⟨c2, List.mem_cons_of_mem _ hc2, hrest⟩

/-- A successful child walk implies every visited child key opened. -/
theorem searchChildren_accessible (g : PyStr) (cs : List RegKey) (ms : List Dict)
    (hok : searchChildren g cs = .ok ms) :
    ∀ c ∈ cs, c.accessible = true := by
  revert ms
  induction cs with
  | nil =>
    intro ms _ c hc
    cases hc
  | cons c0 rest ih =>
    intro ms hok c hc
    simp only [searchChildren] at hok
    cases h1 : scanChild g c0 with
    | err e => rw [h1] at hok; cases hok
    | ok m1 =>
      rw [h1] at hok
      cases h2 : searchChildren g rest with
      | err e => rw [h2] at hok; cases hok
      | ok ms2 =>
        rcases List.mem_cons.mp hc with rfl | hc2
        · exact (scanChild_ok g c m1 h1).1
        · exact ih ms2 h2 c hc2

/-- When every visited child produces a known record list, the walk
concatenates them in child order. -/
theorem searchChildren_eq_flatMap (g : PyStr) (cs : List RegKey) (f : RegKey → List Dict)
    (hc : ∀ c ∈ cs, scanChild g c = .ok (f c)) :
    searchChildren g cs = .ok (cs.flatMap f) := by
  revert hc
  induction cs with
  | nil => intro _; simp [searchChildren]
  | cons c rest ih =>
    intro hc
    simp only [searchChildren, hc c (List.mem_cons_self _ _),
      ih (fun c2 hm => hc c2 (List.mem_cons_of_mem _ hm))]
    simp [List.flatMap_cons]

/-- The top-level query reduces to a single `search_hive` call on the first
configured path: the `[:1]` slice drops the second one. -/
theorem find_eq_first (g : PyStr) (h : Hive) :
    find_application_display_name_by_name g h =
      if h.connectable then search_hive g h uninstallPath1 else .err .connectFailed := by
  unfold find_application_display_name_by_name
  cases hc : h.connectable
  · simp
  · simp only [if_true]
    have htake : uninstall_hives.take 1 = [uninstallPath1] := rfl
    rw [htake]
    simp only [searchPathList]
    cases search_hive g h uninstallPath1 <;> simp

/-- When every match dict has the exact key `"DisplayName"`, the terse print
loop completes and emits exactly the looked-up values, in order. -/
theorem terseLines_spec (ms : List Dict)
    (hkeys : ∀ m ∈ ms, (dictGet m displayNameKey).isSome = true) :
    (terseLines ms).2 = true ∧
      (terseLines ms).1.map some = ms.map (fun m => dictGet m displayNameKey) := by
  revert hkeys
  induction ms with
  | nil => intro _; simp [terseLines]
  | cons m rest ih =>
    intro hkeys
    have hm := hkeys m (List.mem_cons_self _ _)
    obtain ⟨v, hv⟩ := Option.isSome_iff_exists.mp hm
    obtain ⟨h2, h1⟩ := ih (fun m2 hm2 => hkeys m2 (List.mem_cons_of_mem _ hm2))
    simp [terseLines, hv, h1, h2]

/-! Theorems for the claims. -/

/-- C1: the claim that the top-level query walks both configured subtree
paths fails on the code: the `[:1]` slice restricts iteration to the first
path.  On `hiveTwoPaths`, which holds a match under each configured path, the
subtree walker does find the second path's match, yet the query returns only
the first path's record. -/
theorem slice_skips_second_path :
    search_hive [] hiveTwoPaths uninstallPath2 = .ok [get_key_details keyBeta.values] ∧
    find_application_display_name_by_name [] hiveTwoPaths =
      .ok [get_key_details keyAlpha.values] := by
  constructor
  · rfl
  · rfl

/-- C2: `fuzzy_match a b` is true exactly when, after trimming whitespace and
lowercasing both strings, one normalized string is a substring of the other.
As a Lean function it is total on all string inputs by construction. -/
theorem fuzzy_match_correct (a b : PyStr) :
    fuzzy_match a b = true ↔
      (pyLower (pyStrip a) <:+: pyLower (pyStrip b) ∨
       pyLower (pyStrip b) <:+: pyLower (pyStrip a)) := by
  rw [fuzzy_match_eq_true_iff]
  simp only [pyNorm, pyStrip_pyLower]

/-- C3: every record produced by a successful query is the flattened
attribute record of one child key under the scanned subtree path, one of
whose attributes has normalized name `"displayname"` and a string value
whose normalization contains, or is contained by, the normalized guess. -/
theorem query_results_provenance (g : PyStr) (h : Hive) (ms : List Dict)
    (hok : find_application_display_name_by_name g h = .ok ms) :
    ∀ m ∈ ms, ∃ cs, lookupPath h.subtrees uninstallPath1 = some cs ∧
      ∃ c ∈ cs, m = get_key_details c.values ∧
        ∃ kv ∈ c.values, pyNorm kv.1 = displaynameChars ∧
          ∃ s, kv.2 = PyVal.str s ∧
            (pyNorm g <:+: pyNorm s ∨ pyNorm s <:+: pyNorm g) := by
  rw [find_eq_first] at hok
  cases hc : h.connectable
  · rw [hc] at hok; simp at hok
  · rw [hc] at hok
    simp only [if_true] at hok
    unfold search_hive at hok
    cases hl : lookupPath h.subtrees uninstallPath1 with
    | none => rw [hl] at hok; cases hok
    | some cs =>
      rw [hl] at hok
      intro m hm
      obtain ⟨c, hcm, heq, kv, hmem, hdn, s, hs, hf⟩ :=
        searchChildren_mem g cs ms hok m hm
      exact ⟨cs, rfl, c, hcm, heq, kv, hmem, hdn, s, hs,
        (fuzzy_match_eq_true_iff g s).mp hf⟩

/-- Witness for C3: at `hiveTwoPaths` with guess `"alpha"` the query succeeds
with one record, and that record is justified. -/
theorem query_results_provenance_witness :
    find_application_display_name_by_name "alpha".data hiveTwoPaths =
      .ok [get_key_details keyAlpha.values] ∧
    (∀ m ∈ [get_key_details keyAlpha.values], ∃ cs,
      lookupPath hiveTwoPaths.subtrees uninstallPath1 = some cs ∧
      ∃ c ∈ cs, m = get_key_details c.values ∧
        ∃ kv ∈ c.values, pyNorm kv.1 = displaynameChars ∧
          ∃ s, kv.2 = PyVal.str s ∧
            (pyNorm "alpha".data <:+: pyNorm s ∨
             pyNorm s <:+: pyNorm "alpha".data)) := by
  have hrun : find_application_display_name_by_name "alpha".data hiveTwoPaths =
      .ok [get_key_details keyAlpha.values] := by decide
  exact ⟨hrun, query_results_provenance "alpha".data hiveTwoPaths _ hrun⟩

/-- C4 counterexample: under the scanned path `hiveNoName` has exactly one
child, but the empty-guess query returns no records — the child has no
`"displayname"`-named attribute, so its record is not "returned for every
child key". -/
theorem empty_guess_not_all_children :
    lookupPath hiveNoName.subtrees uninstallPath1 = some [keyNoName] ∧
    find_application_display_name_by_name [] hiveNoName = .ok [] ∧
    find_application_display_name_by_name [] hiveNoName ≠
      .ok [get_key_details keyNoName.values] := by
  refine ⟨rfl, rfl, ?_⟩
  decide

/-- Flattening singleton blocks is a map. -/
theorem flatMap_singleton_eq_map {α β : Type} (f : α → β) (l : List α) :
    l.flatMap (fun a => [f a]) = l.map f := by
  induction l with
  | nil => rfl
  | cons a rest ih => simp [List.flatMap_cons, ih]

/-- C4 amended: with the empty guess the query returns the full record of
every child under the scanned path, one record per child, provided every
child opens and carries exactly one `"displayname"`-named attribute whose
value is a string. -/
theorem empty_guess_returns_each_named_child (h : Hive) (cs : List RegKey)
    (hconn : h.connectable = true)
    (hpath : lookupPath h.subtrees uninstallPath1 = some cs)
    (hacc : ∀ c ∈ cs, c.accessible = true)
    (hone : ∀ c ∈ cs,
      c.values.countP (fun kv => decide (pyNorm kv.1 = displaynameChars)) = 1)
    (hstr : ∀ c ∈ cs, ∀ kv ∈ c.values,
      pyNorm kv.1 = displaynameChars → kv.2.isStr = true) :
    find_application_display_name_by_name [] h =
      .ok (cs.map (fun c => get_key_details c.values)) := by
  rw [find_eq_first, hconn]
  simp only [if_true]
  unfold search_hive
  rw [hpath]
  have hchild : ∀ c ∈ cs, scanChild [] c = .ok [get_key_details c.values] := by
    intro c hc
    unfold scanChild
    rw [hacc c hc]
    simp only [if_true]
    rw [scanValues_ok_of_strings [] c.values c.values (hstr c hc)]
    have hcnt : c.values.countP (isMatchAttr []) =
        c.values.countP (fun kv => decide (pyNorm kv.1 = displaynameChars)) := by
      apply List.countP_congr
      intro kv hkv
      by_cases hdn : pyNorm kv.1 = displaynameChars
      · have hs := hstr c hc kv hkv hdn
        cases h2 : kv.2 with
        | str s => simp [isMatchAttr, hdn, h2, fuzzy_match_nil]
        | int n => rw [h2] at hs; simp [PyVal.isStr] at hs
      · simp [isMatchAttr, hdn]
    rw [hcnt, hone c hc]
    rfl
  have hsc := searchChildren_eq_flatMap [] cs (fun c => [get_key_details c.values]) hchild
  rw [flatMap_singleton_eq_map (fun c => get_key_details c.values) cs] at hsc
  exact hsc

/-- Witness for the amended C4: on `hiveTwoKids` the empty-guess query
returns both children's records, one each, in child order. -/
theorem empty_guess_returns_each_named_child_witness :
    find_application_display_name_by_name [] hiveTwoKids =
      .ok ([keyAlpha, keyBeta].map (fun c => get_key_details c.values)) :=
  empty_guess_returns_each_named_child hiveTwoKids [keyAlpha, keyBeta]
    rfl rfl (by decide) (by decide) (by decide)

/-- C5 counterexample: `hiveLowerName` yields exactly one match, but terse
mode prints zero lines: the match's dict key is spelled `"displayname"`, so
`m["DisplayName"]` raises `KeyError`. -/
theorem terse_keyerror_counterexample :
    find_application_display_name_by_name [] hiveLowerName =
      .ok [get_key_details keyLowerName.values] ∧
    run_terse [] hiveLowerName = ([], false) := by
  constructor
  · rfl
  · rfl

/-- C5 amended: in terse mode the program prints one line per match, each
equal to that match's `DisplayName` value, in walk order — provided every
match record carries the exact key `"DisplayName"`; otherwise the lookup
raises `KeyError` and printing aborts early. -/
theorem terse_prints_each_display_name (g : PyStr) (h : Hive) (ms : List Dict)
    (hok : find_application_display_name_by_name g h = .ok ms)
    (hkeys : ∀ m ∈ ms, (dictGet m displayNameKey).isSome = true) :
    (run_terse g h).2 = true ∧
      (run_terse g h).1.map some = ms.map (fun m => dictGet m displayNameKey) := by
  unfold run_terse
  rw [hok]
  exact terseLines_spec ms hkeys

/-- Witness for the amended C5: on `hiveTwoKids` terse mode completes and
prints the two `DisplayName` values in walk order. -/
theorem terse_prints_each_display_name_witness :
    (run_terse [] hiveTwoKids).2 = true ∧
    (run_terse [] hiveTwoKids).1.map some =
      [get_key_details keyAlpha.values, get_key_details keyBeta.values].map
        (fun m => dictGet m displayNameKey) :=
  terse_prints_each_display_name [] hiveTwoKids
    [get_key_details keyAlpha.values, get_key_details keyBeta.values]
    (by decide) (by decide)

/-- C6: a failed root connection aborts the query with no partial results; a
subtree path that cannot be opened aborts `search_hive`; and a successful
child walk requires every visited child key to have opened, so a mid-walk
open failure means no result list is returned. -/
theorem store_failures_abort_query :
    (∀ (g : PyStr) (h : Hive), h.connectable = false →
      find_application_display_name_by_name g h = .err .connectFailed) ∧
    (∀ (g : PyStr) (h : Hive) (p : PyStr), lookupPath h.subtrees p = none →
      search_hive g h p = .err .openKeyFailed) ∧
    (∀ (g : PyStr) (cs : List RegKey) (ms : List Dict),
      searchChildren g cs = .ok ms → ∀ c ∈ cs, c.accessible = true) := by
  refine ⟨?_, ?_, searchChildren_accessible⟩
  · intro g h hc
    unfold find_application_display_name_by_name
    rw [hc]
    simp
  · intro g h p hp
    unfold search_hive
    rw [hp]

/-- Witness for C6: a closed root, a missing subtree path, and the child of a
successful walk being accessible. -/
theorem store_failures_abort_query_witness :
    find_application_display_name_by_name [] hiveClosed = .err .connectFailed ∧
    search_hive [] hiveClosed "Nope".data = .err .openKeyFailed ∧
    keyAlpha.accessible = true :=
  ⟨store_failures_abort_query.1 [] hiveClosed rfl,
   store_failures_abort_query.2.1 [] hiveClosed "Nope".data (by decide),
   store_failures_abort_query.2.2 [] [keyAlpha] [get_key_details keyAlpha.values]
     (by decide) keyAlpha (by decide)⟩

/-- C7: `fuzzy_match` is symmetric in its two arguments. -/
theorem fuzzy_match_symm (a b : PyStr) : fuzzy_match a b = fuzzy_match b a := by
  simp [fuzzy_match, Bool.or_comm]

/-- C8: when a child key opens and all its `"displayname"`-named attribute
values are strings, its full record is appended once per attribute occurrence
satisfying the match condition — no deduplication is performed. -/
theorem match_per_attribute_occurrence (g : PyStr) (c : RegKey)
    (hacc : c.accessible = true)
    (hstr : ∀ kv ∈ c.values, pyNorm kv.1 = displaynameChars → kv.2.isStr = true) :
    scanChild g c =
      .ok (List.replicate (c.values.countP (isMatchAttr g))
        (get_key_details c.values)) := by
  unfold scanChild
  rw [hacc]
  simp only [if_true]
  exact scanValues_ok_of_strings g c.values c.values hstr

/-- Witness for C8: `keyDupName` has two attributes that normalize to
`"displayname"` and fuzzy-match `"app"`, and its record is appended twice. -/
theorem match_per_attribute_occurrence_witness :
    keyDupName.values.countP (isMatchAttr "app".data) = 2 ∧
    scanChild "app".data keyDupName =
      .ok (List.replicate (keyDupName.values.countP (isMatchAttr "app".data))
        (get_key_details keyDupName.values)) :=
  ⟨by decide, match_per_attribute_occurrence "app".data keyDupName rfl (by decide)⟩

/-- C9 counterexample: a non-string attribute value of unexpected shape CAN
abort the walk — when it sits under a `"displayname"`-named attribute,
`fuzzy_match` calls `.lower()` on it and raises `AttributeError`, so the
query over `hiveIntName` fails instead of running to completion. -/
theorem nonstring_value_aborts_walk :
    find_application_display_name_by_name [] hiveIntName = .err .attributeError := by
  rfl

/-- C9 amended: an attribute value of unexpected shape never aborts the walk
as long as it does not sit under an attribute whose normalized name is
`"displayname"`: with all `"displayname"`-named values strings, the scan of a
child runs to completion whatever the shapes of its other values. -/
theorem nonstring_other_attr_safe (g : PyStr) (c : RegKey)
    (hacc : c.accessible = true)
    (hstr : ∀ kv ∈ c.values, pyNorm kv.1 = displaynameChars → kv.2.isStr = true) :
    ∃ ms, scanChild g c = .ok ms := by
  refine ⟨List.replicate (c.values.countP (isMatchAttr g)) (get_key_details c.values), ?_⟩
  unfold scanChild
  rw [hacc]
  simp only [if_true]
  exact scanValues_ok_of_strings g c.values c.values hstr

/-- Witness for the amended C9: `keyDupName` carries a non-string `Version`
value, yet its scan completes. -/
theorem nonstring_other_attr_safe_witness :
    ∃ ms, scanChild "one".data keyDupName = .ok ms :=
  nonstring_other_attr_safe "one".data keyDupName rfl (by decide)

/-- C10: for every guess, a child key none of whose attribute names
normalizes to `"displayname"` contributes no record to the walk. -/
theorem no_name_attr_no_contribution (g : PyStr) (c : RegKey)
    (hacc : c.accessible = true)
    (hnone : ∀ kv ∈ c.values, ¬ pyNorm kv.1 = displaynameChars) :
    scanChild g c = .ok [] := by
  unfold scanChild
  rw [hacc]
  simp only [if_true]
  have hstr : ∀ kv ∈ c.values, pyNorm kv.1 = displaynameChars → kv.2.isStr = true :=
    fun kv hm hdn => absurd hdn (hnone kv hm)
  rw [scanValues_ok_of_strings g c.values c.values hstr]
  have hcnt : c.values.countP (isMatchAttr g) = 0 := by
    rw [List.countP_eq_zero]
    intro kv hkv hmatch
    have hdn : pyNorm kv.1 = displaynameChars := by
      simp only [isMatchAttr, Bool.and_eq_true, decide_eq_true_eq] at hmatch
      exact hmatch.1
    exact hnone kv hkv hdn
  rw [hcnt]
  rfl

/-- Witness for C10: `keyNoName` has no `"displayname"`-named attribute and
contributes nothing even for the empty guess. -/
theorem no_name_attr_no_contribution_witness :
    scanChild [] keyNoName = .ok [] :=
  no_name_attr_no_contribution [] keyNoName rfl (by decide)
